import Mathlib

/-!
Shallow embedding of the `todos` comment scanner (`src/main.rs`).

The program has two core pieces:

* `CommentIterator` (here `nextGo` / `next` / `extractAll`): a line-oriented
  three-state machine that turns the lines of one file into a sequence of
  comment blocks, each tagged with the 1-based line on which it starts.
* `CommentTracker` (here `found_possible_comment`): classifies the text of one
  comment block under all marker labels found in it (words beginning with
  `XXX`, `FIXME` or `TODO`, with one trailing `:` stripped), accumulating an
  index from label to the ordered list of comment records.

Rust string primitives (`str::trim`, `str::starts_with`, `str::contains`,
`str::ends_with`, `str::split_whitespace`, removal of a final byte) are
modelled over the underlying character list of a Lean `String`, so that every
definition evaluates by kernel reduction.  The `BTreeMap<String, Vec<Comment>>`
is modelled by its lookup function (absent key ↦ `[]`), and the `BTreeSet` of
found kinds by a duplicate-free list; the per-label effect of the Rust loop
over the set does not depend on the set's iteration order, because distinct
kinds touch distinct keys.  The `eprintln!` diagnostics of `next` are modelled
as an optional message carried in the result, and the `assert_eq!` at the end
of `next` as an explicit `assertFailed` outcome.
-/

namespace Todos

/-- Model of Rust `str::starts_with` on character lists: `isPrefixCh p l` is
true when `p` is a prefix of `l`. -/
def isPrefixCh : List Char → List Char → Bool
  | [], _ => true
  | _ :: _, [] => false
  | a :: as, b :: bs => a == b && isPrefixCh as bs

/-- Model of Rust `str::contains` on character lists: some suffix of the
haystack starts with the pattern. -/
def containsCh (pat : List Char) : List Char → Bool
  | [] => isPrefixCh pat []
  | b :: bs => isPrefixCh pat (b :: bs) || containsCh pat bs

/-- Model of Rust `str.trim_start().trim_end()`: drop whitespace characters
from both ends. -/
def trimChars (l : List Char) : List Char :=
  ((l.dropWhile Char.isWhitespace).reverse.dropWhile Char.isWhitespace).reverse

/-- Trim a string on both sides (Rust `line.trim_start().trim_end()`). -/
def strTrim (s : String) : String := ⟨trimChars s.data⟩

/-- Rust `s.starts_with(pre)`. -/
def strStartsWith (s pre : String) : Bool := isPrefixCh pre.data s.data

/-- Rust `s.contains(pat)`. -/
def strContains (s pat : String) : Bool := containsCh pat.data s.data

/-- Rust `s.ends_with(t)`. -/
def strEndsWith (s t : String) : Bool := isPrefixCh t.data.reverse s.data.reverse

/-- Rust `&word[0..word.len() - 1]` for a word ending in the one-byte
character `:`: remove the final character. -/
def strDropLast (s : String) : String := ⟨s.data.dropLast⟩

/-- Worker for `splitWhitespace`; `acc` holds the current word reversed. -/
def splitWsGo : List Char → List Char → List String
  | acc, [] => if acc = [] then [] else [⟨acc.reverse⟩]
  | acc, c :: cs =>
    if c.isWhitespace then
      if acc = [] then splitWsGo [] cs else ⟨acc.reverse⟩ :: splitWsGo [] cs
    else splitWsGo (c :: acc) cs

/-- Rust `contents.split_whitespace()`: maximal whitespace-free words, in
order, with no empty words. -/
def splitWhitespace (s : String) : List String := splitWsGo [] s.data

/-- A comment found in a file (struct `Comment` in `main.rs`): the block text,
the file path rendered as a string, and a display location `"line N"`. -/
structure Comment where
  contents : String
  file : String
  location : String
  deriving DecidableEq, Repr

/-- The tracker state `comments_by_kind : BTreeMap<String, Vec<Comment>>`,
modelled by its lookup function; a label absent from the map looks up to
`[]`. -/
abbrev LabelIndex := String → List Comment

/-- The marker test of `found_possible_comment`: a word is TODO-like when it
starts with `XXX`, `FIXME` or `TODO`. -/
def isMarkerWord (word : String) : Bool :=
  strStartsWith word "XXX" || strStartsWith word "FIXME" || strStartsWith word "TODO"

/-- The label under which a marker word is filed: one trailing `:` is
stripped (`label = &word[0..word.len() - 1]` when `word.ends_with(':')`),
otherwise the word itself. -/
def markerLabel (word : String) : String :=
  if strEndsWith word ":" then strDropLast word else word

/-- The `BTreeSet` `found_kinds` built by the word loop of
`found_possible_comment`: the distinct labels of the marker words of the
comment text, as a duplicate-free list. -/
def foundKinds (contents : String) : List String :=
  (((splitWhitespace contents).filter (fun w => isMarkerWord w)).map markerLabel).dedup

/-- The `Comment` record pushed by `found_possible_comment`: the full comment
text, the path, and `location = format!("line N")`. -/
def mkComment (contents : String) (path : String) (line : Nat) : Comment :=
  { contents := contents, file := path, location := "line " ++ Nat.repr line }

/-- `CommentTracker::found_possible_comment`: for each distinct kind found in
the text, append one record (full text, path, line) to that kind's list. -/
def found_possible_comment (m : LabelIndex) (contents : String) (path : String)
    (line : Nat) : LabelIndex :=
  (foundKinds contents).foldl
    (fun acc k => fun q =>
      if q = k then acc q ++ [mkComment contents path line] else acc q)
    m

/-- The parser state local to `CommentIterator::next`. -/
inductive FileState where
  | NoComment : FileState
  | InLineComment : Nat → FileState
  | InBlockComment : Nat → FileState
  deriving DecidableEq, Repr

/-- Outcome of one call to `CommentIterator::next`.  `block start text diag
rest` models `Some((start, text))` returned with the iterator advanced to
`rest`, where `diag` records the `eprintln!` message (if any) emitted on the
way out; `exhausted` models `None`; `assertFailed` models a panic of the
`assert_eq!(lines.len(), 0)` at the end of `next`. -/
inductive NextResult where
  | block : Nat → String → Option String → List (Nat × String) → NextResult
  | exhausted : NextResult
  | assertFailed : List String → NextResult
  deriving DecidableEq, Repr

/-- `CommentIterator::join`: each collected line followed by a newline,
concatenated. -/
def join (lines : List String) : String :=
  String.join (lines.map (fun l => l ++ "\n"))

/-- The loop body of `CommentIterator::next`, recursing over the remaining
enumerated lines (`self.lines`), with the accumulated comment lines and the
current `FileState`. -/
def nextGo : FileState → List String → List (Nat × String) → NextResult
  | st, lines, [] =>
    match st with
    | .NoComment =>
      if lines = [] then .exhausted else .assertFailed lines
    | .InLineComment start =>
      .block start (join lines) (some "warning: file ended with a line comment") []
    | .InBlockComment start =>
      .block start (join lines) (some "error: file ended with a line comment") []
  | st, lines, (lineNumz, rawLine) :: rest =>
    let line := strTrim rawLine
    match st with
    | .NoComment =>
      if strStartsWith line "//" then
        nextGo (.InLineComment (lineNumz + 1)) (lines ++ [line]) rest
      else if strStartsWith line "/*" && !(strContains line "*/") then
        nextGo (.InBlockComment (lineNumz + 1)) (lines ++ [line]) rest
      else
        nextGo .NoComment lines rest
    | .InLineComment start =>
      if !(strStartsWith line "//") then
        .block start (join lines) none rest
      else
        nextGo (.InLineComment start) (lines ++ [line]) rest
    | .InBlockComment start =>
      if line == "*/" then
        .block start (join (lines ++ [line])) none rest
      else
        nextGo (.InBlockComment start) (lines ++ [line]) rest

/-- `CommentIterator::next`: one iteration step, starting (as the code's
precondition states) outside any comment with no accumulated lines. -/
def next (remaining : List (Nat × String)) : NextResult :=
  nextGo .NoComment [] remaining

/-- `input.lines().enumerate()`: the lines of the file paired with 0-based
indices. -/
def enumerate (lines : List String) : List (Nat × String) :=
  lines.enum

/-- Driver that repeatedly calls `next`, collecting every emitted block with
its diagnostic; the fuel bounds the number of iteration steps (each `block`
outcome consumes at least one input line, so `length + 1` steps suffice). -/
def extractGo : Nat → List (Nat × String) → List (Nat × String × Option String)
  | 0, _ => []
  | fuel + 1, remaining =>
    match next remaining with
    | .block start text diag rest => (start, text, diag) :: extractGo fuel rest
    | .exhausted => []
    | .assertFailed _ => []

/-- All comment blocks of a file, in order: the sequence of `(starting_line,
text, diagnostic)` triples produced by iterating `CommentIterator`. -/
def extractAll (fileLines : List String) : List (Nat × String × Option String) :=
  extractGo (fileLines.length + 1) (enumerate fileLines)

/-- The per-file pipeline of `do_file`: run the iterator over the file's
lines and feed every `(line, chunk)` it yields to
`found_possible_comment`.  The diagnostic component is ignored, exactly as
the Rust loop only destructures `(line, chunk)`. -/
def processFile (m : LabelIndex) (path : String) (fileLines : List String) : LabelIndex :=
  (extractAll fileLines).foldl
    (fun acc lc => found_possible_comment acc lc.2.1 path lc.1) m

/-- Pointwise effect of the fold in `found_possible_comment` over a
duplicate-free list of kinds: a key in the list gains exactly the one new
record at the end of its list, every other key is untouched. -/
theorem foldl_add_apply (c : Comment) :
    ∀ (ks : List String) (m : LabelIndex) (q : String), ks.Nodup →
      (ks.foldl (fun acc k => fun r => if r = k then acc r ++ [c] else acc r) m) q =
        if q ∈ ks then m q ++ [c] else m q := by
  intro ks
  induction ks with
  | nil => intro m q _; simp
  | cons a as ih =>
    intro m q hnd
    rw [List.foldl_cons]
    rw [ih _ q (List.Nodup.of_cons hnd)]
    by_cases hqa : q = a
    · subst hqa
      have hq : q ∉ as := (List.nodup_cons.mp hnd).1
      simp [hq]
    · simp [hqa, List.mem_cons]

/-- The index after `found_possible_comment`, at any key: keys among the
found kinds gain one record, all others are unchanged. -/
theorem found_apply (m : LabelIndex) (contents path : String) (line : Nat) (q : String) :
    found_possible_comment m contents path line q =
      if q ∈ foundKinds contents then m q ++ [mkComment contents path line] else m q :=
  foldl_add_apply (mkComment contents path line) (foundKinds contents) m q
    (List.nodup_dedup _)

/-- A marker word occurring in the comment text contributes its label to the
set of found kinds. -/
theorem mem_foundKinds {w contents : String}
    (hw : w ∈ splitWhitespace contents) (hm : isMarkerWord w = true) :
    markerLabel w ∈ foundKinds contents := by
  unfold foundKinds
  rw [List.mem_dedup]
  exact List.mem_map_of_mem _ (List.mem_filter.mpr ⟨hw, hm⟩)

/-- If no word of the comment text is a marker, no kind is found. -/
theorem foundKinds_eq_nil {contents : String}
    (h : ∀ w ∈ splitWhitespace contents, isMarkerWord w = false) :
    foundKinds contents = [] := by
  unfold foundKinds
  have hf : (splitWhitespace contents).filter (fun w => isMarkerWord w) = [] := by
    rw [List.filter_eq_nil_iff]
    intro a ha
    simp [h a ha]
  rw [hf]
  rfl

/-- Deduplicating a nonempty constant list yields the singleton. -/
theorem dedup_const {α : Type} [DecidableEq α] :
    ∀ (l : List α) (x : α), l ≠ [] → (∀ y ∈ l, y = x) → l.dedup = [x] := by
  intro l
  induction l with
  | nil => intro x hne _; exact absurd rfl hne
  | cons a as ih =>
    intro x _ hall
    have ha : a = x := hall a (List.mem_cons_self a as)
    subst ha
    cases as with
    | nil => simp
    | cons b bs =>
      have hb : b = a := hall b (by simp)
      have hmem : a ∈ b :: bs := by rw [hb]; exact List.mem_cons_self a bs
      rw [List.dedup_cons_of_mem hmem]
      exact ih a (by simp) (fun y hy => hall y (List.mem_cons_of_mem a hy))

/-- When every marker word of the text is the same word `w` and `w` occurs,
the found kinds are exactly the one label of `w`. -/
theorem foundKinds_single {w contents : String}
    (hw : w ∈ splitWhitespace contents) (hm : isMarkerWord w = true)
    (hall : ∀ v ∈ splitWhitespace contents, isMarkerWord v = true → v = w) :
    foundKinds contents = [markerLabel w] := by
  apply dedup_const
  · exact List.ne_nil_of_mem (List.mem_map_of_mem _ (List.mem_filter.mpr ⟨hw, hm⟩))
  · intro y hy
    rcases List.mem_map.mp hy with ⟨v, hv, rfl⟩
    rcases List.mem_filter.mp hv with ⟨hv1, hv2⟩
    rw [hall v hv1 hv2]

/-- A two-character prefix exposes the first two characters of the list. -/
theorem isPrefixCh_two {a b : Char} {l : List Char} (h : isPrefixCh [a, b] l = true) :
    ∃ t, l = a :: b :: t := by
  match l with
  | [] => simp [isPrefixCh] at h
  | [x] => simp [isPrefixCh] at h
  | x :: y :: t =>
    simp [isPrefixCh] at h
    exact ⟨t, by rw [h.1, h.2]⟩

/-- A trimmed line that starts with `/*` does not start with `//`, so the
line-comment branch of the scanner does not fire on it. -/
theorem startsWith_blockStart_not_line {s : String}
    (h : strStartsWith s "/*" = true) : strStartsWith s "//" = false := by
  have h' : isPrefixCh ['/', '*'] s.data = true := h
  obtain ⟨t, ht⟩ := isPrefixCh_two h'
  have heq : strStartsWith s "//" = isPrefixCh ['/', '/'] s.data := rfl
  have hc : (('/' : Char) == '*') = false := by decide
  rw [heq, ht]
  simp [isPrefixCh, hc]

/-- Flush of an open line comment: if every remaining line still starts with
`//`, the scan accumulates them all and emits the block at end of input with
the warning diagnostic. -/
theorem nextGo_lineFlush :
    ∀ (pre : List (Nat × String)) (start : Nat) (acc : List String),
      (∀ p ∈ pre, strStartsWith (strTrim p.2) "//" = true) →
      nextGo (.InLineComment start) acc pre =
        .block start (join (acc ++ pre.map (fun p => strTrim p.2)))
          (some "warning: file ended with a line comment") [] := by
  intro pre
  induction pre with
  | nil => intro start acc _; simp [nextGo]
  | cons p ps ih =>
    intro start acc h
    obtain ⟨n, raw⟩ := p
    have hp : strStartsWith (strTrim raw) "//" = true := h (n, raw) (by simp)
    simp only [nextGo, hp, Bool.not_true, if_neg (by simp : ¬(false = true))]
    rw [ih start (acc ++ [strTrim raw]) (fun q hq => h q (List.mem_cons_of_mem _ hq))]
    simp [List.append_assoc]

/-- Flush of an open block comment: if no remaining line trims to `*/`, the
scan accumulates them all and emits the block at end of input with the
(cosmetically mislabelled) diagnostic. -/
theorem nextGo_blockFlush :
    ∀ (pre : List (Nat × String)) (start : Nat) (acc : List String),
      (∀ p ∈ pre, strTrim p.2 ≠ "*/") →
      nextGo (.InBlockComment start) acc pre =
        .block start (join (acc ++ pre.map (fun p => strTrim p.2)))
          (some "error: file ended with a line comment") [] := by
  intro pre
  induction pre with
  | nil => intro start acc _; simp [nextGo]
  | cons p ps ih =>
    intro start acc h
    obtain ⟨n, raw⟩ := p
    have hp : strTrim raw ≠ "*/" := h (n, raw) (by simp)
    have hbeq : (strTrim raw == "*/") = false := beq_eq_false_iff_ne.mpr hp
    simp only [nextGo, hbeq, if_neg (by simp : ¬(false = true))]
    rw [ih start (acc ++ [strTrim raw]) (fun q hq => h q (List.mem_cons_of_mem _ hq))]
    simp [List.append_assoc]

/-- Inside a line comment, a run of `//` lines followed by a non-`//` line:
the block is emitted with the `//` lines collected so far, and the scan
resumes AFTER the terminating line, which has been consumed. -/
theorem nextGo_lineRun :
    ∀ (pre : List (Nat × String)) (start : Nat) (acc : List String) (i : Nat)
      (raw : String) (rest : List (Nat × String)),
      (∀ p ∈ pre, strStartsWith (strTrim p.2) "//" = true) →
      strStartsWith (strTrim raw) "//" = false →
      nextGo (.InLineComment start) acc (pre ++ (i, raw) :: rest) =
        .block start (join (acc ++ pre.map (fun p => strTrim p.2))) none rest := by
  intro pre
  induction pre with
  | nil =>
    intro start acc i raw rest _ hterm
    simp [nextGo, hterm]
  | cons p ps ih =>
    intro start acc i raw rest h hterm
    obtain ⟨n, r⟩ := p
    have hp : strStartsWith (strTrim r) "//" = true := h (n, r) (by simp)
    simp only [List.cons_append]
    simp only [nextGo, hp, Bool.not_true, if_neg (by simp : ¬(false = true))]
    rw [ih start (acc ++ [strTrim r]) i raw rest
      (fun q hq => h q (List.mem_cons_of_mem _ hq)) hterm]
    simp [List.append_assoc]

/-- Inside a block comment, every line up to the first one trimming to `*/`
is accumulated; that terminating line is included in the block and the scan
resumes after it. -/
theorem nextGo_blockRun :
    ∀ (pre : List (Nat × String)) (start : Nat) (acc : List String) (i : Nat)
      (term : String) (post : List (Nat × String)),
      (∀ p ∈ pre, strTrim p.2 ≠ "*/") → strTrim term = "*/" →
      nextGo (.InBlockComment start) acc (pre ++ (i, term) :: post) =
        .block start (join (acc ++ pre.map (fun p => strTrim p.2) ++ ["*/"])) none post := by
  intro pre
  induction pre with
  | nil =>
    intro start acc i term post _ hterm
    simp [nextGo, hterm]
  | cons p ps ih =>
    intro start acc i term post h hterm
    obtain ⟨n, r⟩ := p
    have hp : strTrim r ≠ "*/" := h (n, r) (by simp)
    have hbeq : (strTrim r == "*/") = false := beq_eq_false_iff_ne.mpr hp
    simp only [List.cons_append]
    simp only [nextGo, hbeq, if_neg (by simp : ¬(false = true))]
    rw [ih start (acc ++ [strTrim r]) i term post
      (fun q hq => h q (List.mem_cons_of_mem _ hq)) hterm]
    simp [List.append_assoc]

/-- Invariant of the scan loop: starting from a state in which the
accumulated lines are empty exactly when the state is `NoComment`, the loop
never hits the failing branch of the final `assert_eq!`, and every emitted
block is the join of a nonempty list of lines. -/
theorem nextGo_wf :
    ∀ (rem : List (Nat × String)) (st : FileState) (acc : List String),
      (st = .NoComment → acc = []) → (st ≠ .NoComment → acc ≠ []) →
      (∀ ls, nextGo st acc rem ≠ .assertFailed ls) ∧
      (∀ s t d r, nextGo st acc rem = .block s t d r → ∃ ls, ls ≠ [] ∧ t = join ls) := by
  intro rem
  induction rem with
  | nil =>
    intro st acc h1 h2
    cases st with
    | NoComment =>
      have hacc : acc = [] := h1 rfl
      subst hacc
      simp [nextGo]
    | InLineComment start =>
      have hacc : acc ≠ [] := h2 (by simp)
      constructor
      · intro ls; simp [nextGo]
      · intro s t d r hb
        simp [nextGo] at hb
        exact ⟨acc, hacc, hb.2.1.symm⟩
    | InBlockComment start =>
      have hacc : acc ≠ [] := h2 (by simp)
      constructor
      · intro ls; simp [nextGo]
      · intro s t d r hb
        simp [nextGo] at hb
        exact ⟨acc, hacc, hb.2.1.symm⟩
  | cons p ps ih =>
    intro st acc h1 h2
    obtain ⟨n, raw⟩ := p
    cases st with
    | NoComment =>
      have hacc : acc = [] := h1 rfl
      subst hacc
      by_cases hl : strStartsWith (strTrim raw) "//" = true
      · have heq : nextGo .NoComment [] ((n, raw) :: ps) =
            nextGo (.InLineComment (n + 1)) [strTrim raw] ps := by
          simp [nextGo, hl]
        rw [heq]
        exact ih (.InLineComment (n + 1)) [strTrim raw] (by intro h; cases h)
          (by intro _; simp)
      · by_cases hb : (strStartsWith (strTrim raw) "/*" &&
            !(strContains (strTrim raw) "*/")) = true
        · have heq : nextGo .NoComment [] ((n, raw) :: ps) =
              nextGo (.InBlockComment (n + 1)) [strTrim raw] ps := by
            simp only [nextGo]
            rw [if_neg (by simp [hl]), if_pos hb]
            simp
          rw [heq]
          exact ih (.InBlockComment (n + 1)) [strTrim raw] (by intro h; cases h)
            (by intro _; simp)
        · have heq : nextGo .NoComment [] ((n, raw) :: ps) =
              nextGo .NoComment [] ps := by
            simp only [nextGo]
            rw [if_neg (by simp [hl]), if_neg (by simp [hb])]
          rw [heq]
          exact ih .NoComment [] (fun _ => rfl) (fun hn => absurd rfl hn)
    | InLineComment start =>
      have hacc : acc ≠ [] := h2 (by simp)
      by_cases hl : strStartsWith (strTrim raw) "//" = true
      · have heq : nextGo (.InLineComment start) acc ((n, raw) :: ps) =
            nextGo (.InLineComment start) (acc ++ [strTrim raw]) ps := by
          simp [nextGo, hl]
        rw [heq]
        exact ih (.InLineComment start) (acc ++ [strTrim raw]) (by intro h; cases h)
          (by intro _; simp)
      · constructor
        · intro ls; simp [nextGo, hl]
        · intro s t d r hb
          simp [nextGo, hl] at hb
          exact ⟨acc, hacc, hb.2.1.symm⟩
    | InBlockComment start =>
      have hacc : acc ≠ [] := h2 (by simp)
      by_cases hl : (strTrim raw == "*/") = true
      · constructor
        · intro ls; simp [nextGo, hl]
        · intro s t d r hb
          simp [nextGo, hl] at hb
          exact ⟨acc ++ [strTrim raw], by simp, hb.2.1.symm⟩
      · have heq : nextGo (.InBlockComment start) acc ((n, raw) :: ps) =
            nextGo (.InBlockComment start) (acc ++ [strTrim raw]) ps := by
          simp [nextGo, hl]
        rw [heq]
        exact ih (.InBlockComment start) (acc ++ [strTrim raw]) (by intro h; cases h)
          (by intro _; simp)

/-- Claim C1, counterexample: the claim says the line terminating a line
comment is re-processed as a potential start of a new comment block, so no
line is dropped.  On the input lines `// a`, `/* b`, `*/`, one iteration step
emits the line-comment block and leaves the scan position AFTER the
terminating line `/* b` (at `(2, "*/")`), and full extraction yields only the
line-comment block — whereas the same two trailing lines on their own do
yield a block comment.  The terminating line is consumed and silently
dropped, falsifying the claim. -/
theorem C1_counterexample :
    next (enumerate ["// a", "/* b", "*/"]) = .block 1 "// a\n" none [(2, "*/")] ∧
    extractAll ["// a", "/* b", "*/"] = [(1, "// a\n", none)] ∧
    extractAll ["/* b", "*/"] = [(1, "/* b\n*/\n", none)] :=
  ⟨by decide, by decide, by decide⟩

/-- Claim C1 (amended): when the extractor is in the line-comment state and
encounters a line that does not start with `//`, it emits the accumulated
block, and the terminating line is CONSUMED — the scan position is advanced
past it and it is never re-processed, so a comment block beginning on that
line is lost. -/
theorem C1_terminating_line_consumed (j : Nat) (raw0 : String)
    (pre : List (Nat × String)) (i : Nat) (raw : String) (rest : List (Nat × String))
    (h0 : strStartsWith (strTrim raw0) "//" = true)
    (hpre : ∀ p ∈ pre, strStartsWith (strTrim p.2) "//" = true)
    (hterm : strStartsWith (strTrim raw) "//" = false) :
    next ((j, raw0) :: (pre ++ (i, raw) :: rest)) =
      .block (j + 1) (join (strTrim raw0 :: pre.map (fun p => strTrim p.2))) none rest := by
  have heq : next ((j, raw0) :: (pre ++ (i, raw) :: rest)) =
      nextGo (.InLineComment (j + 1)) [strTrim raw0] (pre ++ (i, raw) :: rest) := by
    show nextGo .NoComment [] _ = _
    simp [nextGo, h0]
  rw [heq, nextGo_lineRun pre (j + 1) [strTrim raw0] i raw rest hpre hterm]
  simp

/-- Witness for C1's amended theorem at the counterexample input. -/
theorem C1_terminating_line_consumed_witness :
    next [(0, "// a"), (1, "/* b"), (2, "*/")] = .block 1 "// a\n" none [(2, "*/")] := by
  have h := C1_terminating_line_consumed 0 "// a" [] 1 "/* b" [(2, "*/")]
    (by decide) (by decide) (by decide)
  exact h

/-- Claim C2, counterexample: extraction of the two lines `// foo`, `// bar`
yields one block starting at line 1, but its text is
`"// foo\n// bar\n"` — the `//` markers are retained (only surrounding
whitespace is trimmed) — and no emitted block has the claimed text
`"foo\nbar\n"`. -/
theorem C2_counterexample :
    (extractAll ["// foo", "// bar"]).map (fun b => (b.1, b.2.1)) =
      [(1, "// foo\n// bar\n")] ∧
    ∀ b ∈ extractAll ["// foo", "// bar"], b.2.1 ≠ "foo\nbar\n" :=
  ⟨by decide, by decide⟩

/-- Claim C2 (amended): the two consecutive lines `// foo`, `// bar` are
extracted as exactly one CommentBlock (not two), with 1-based starting line
1 and text `"// foo\n// bar\n"` — each line trimmed of surrounding
whitespace only, the comment markers retained, lines rejoined each with a
trailing newline; since the input ends inside the comment the block is
flushed with the end-of-file warning. -/
theorem C2_single_block_with_markers :
    extractAll ["// foo", "// bar"] =
      [(1, "// foo\n// bar\n", some "warning: file ended with a line comment")] := by
  decide

/-- Claim C3: a comment block still open when the input lines run out is
emitted anyway with its accumulated (trimmed) lines and correct 1-based
starting line, carrying a diagnostic message — the warning for a line
comment, and a message that merely reads like an error for a block comment —
and the flushed block flows through the per-file pipeline into the tracker
exactly like a complete block (shown for a file ending inside `/* TODO x`). -/
theorem C3_flush_and_classify :
    (∀ (j : Nat) (raw0 : String) (pre : List (Nat × String)),
      strStartsWith (strTrim raw0) "//" = true →
      (∀ p ∈ pre, strStartsWith (strTrim p.2) "//" = true) →
      next ((j, raw0) :: pre) =
        .block (j + 1) (join (strTrim raw0 :: pre.map (fun p => strTrim p.2)))
          (some "warning: file ended with a line comment") []) ∧
    (∀ (j : Nat) (raw0 : String) (pre : List (Nat × String)),
      strStartsWith (strTrim raw0) "/*" = true →
      strContains (strTrim raw0) "*/" = false →
      (∀ p ∈ pre, strTrim p.2 ≠ "*/") →
      next ((j, raw0) :: pre) =
        .block (j + 1) (join (strTrim raw0 :: pre.map (fun p => strTrim p.2)))
          (some "error: file ended with a line comment") []) ∧
    (∀ (m : LabelIndex) (path : String),
      processFile m path ["/* TODO x"] "TODO" =
        m "TODO" ++ [mkComment "/* TODO x\n" path 1]) := by
  refine ⟨?_, ?_, ?_⟩
  · intro j raw0 pre h0 hpre
    have heq : next ((j, raw0) :: pre) =
        nextGo (.InLineComment (j + 1)) [strTrim raw0] pre := by
      show nextGo .NoComment [] _ = _
      simp [nextGo, h0]
    rw [heq, nextGo_lineFlush pre (j + 1) [strTrim raw0] hpre]
    simp
  · intro j raw0 pre h0 h1 hpre
    have hnl : strStartsWith (strTrim raw0) "//" = false :=
      startsWith_blockStart_not_line h0
    have heq : next ((j, raw0) :: pre) =
        nextGo (.InBlockComment (j + 1)) [strTrim raw0] pre := by
      show nextGo .NoComment [] _ = _
      simp [nextGo, hnl, h0, h1]
    rw [heq, nextGo_blockFlush pre (j + 1) [strTrim raw0] hpre]
    simp
  · intro m path
    have h1 : extractAll ["/* TODO x"] =
        [(1, "/* TODO x\n", some "error: file ended with a line comment")] := by decide
    unfold processFile
    rw [h1]
    simp only [List.foldl_cons, List.foldl_nil]
    rw [found_apply]
    rw [if_pos (show ("TODO" : String) ∈ foundKinds "/* TODO x\n" from by decide)]

/-- Witness for C3 at concrete inputs: a file ending in an open line comment,
a file ending in an open block comment, and the flushed block of a file
ending inside `/* TODO x` being classified under `TODO`. -/
theorem C3_flush_and_classify_witness :
    next [(0, "// a"), (1, "// b")] =
      .block 1 (join (strTrim "// a" :: List.map (fun p => strTrim p.2) [(1, "// b")]))
        (some "warning: file ended with a line comment") [] ∧
    next [(0, "/* a"), (1, "b")] =
      .block 1 (join (strTrim "/* a" :: List.map (fun p => strTrim p.2) [(1, "b")]))
        (some "error: file ended with a line comment") [] ∧
    processFile (fun _ => []) "f.rs" ["/* TODO x"] "TODO" =
      [mkComment "/* TODO x\n" "f.rs" 1] := by
  refine ⟨C3_flush_and_classify.1 0 "// a" [(1, "// b")] (by decide) (by decide),
          C3_flush_and_classify.2.1 0 "/* a" [(1, "b")] (by decide) (by decide) (by decide),
          ?_⟩
  have h := C3_flush_and_classify.2.2 (fun _ => []) "f.rs"
  simpa using h

/-- Claim C4: a comment whose marker words are all the same word `w` (with
`w` occurring at least once) contributes exactly one record, under exactly
the one label of `w`: that label's list gains the single new record and
every other key of the index is untouched. -/
theorem C4_single_marker_single_record (m : LabelIndex) (contents path : String)
    (line : Nat) (w : String)
    (hw : w ∈ splitWhitespace contents) (hm : isMarkerWord w = true)
    (hall : ∀ v ∈ splitWhitespace contents, isMarkerWord v = true → v = w) :
    found_possible_comment m contents path line (markerLabel w) =
      m (markerLabel w) ++ [mkComment contents path line] ∧
    ∀ q, q ≠ markerLabel w → found_possible_comment m contents path line q = m q := by
  have hfk := foundKinds_single hw hm hall
  constructor
  · rw [found_apply, hfk]
    simp
  · intro q hq
    rw [found_apply, hfk]
    simp [hq]

/-- Witness for C4: the text `TODO a TODO` (the marker `TODO` twice, no
other markers) adds one record under `TODO` and nothing under `FIXME`. -/
theorem C4_witness :
    found_possible_comment (fun _ => []) "TODO a TODO" "f.rs" 3 (markerLabel "TODO") =
      [mkComment "TODO a TODO" "f.rs" 3] ∧
    found_possible_comment (fun _ => []) "TODO a TODO" "f.rs" 3 "FIXME" = [] := by
  have h := C4_single_marker_single_record (fun _ => []) "TODO a TODO" "f.rs" 3 "TODO"
    (by decide) (by decide) (by decide)
  exact ⟨by simpa using h.1, h.2 "FIXME" (by decide)⟩

/-- Claim C5: a comment containing both words `TODO-security` and
`TODO-coverage` appends exactly one record — carrying the full comment text,
file path and starting line — to each of the two distinct labels. -/
theorem C5_two_labels_one_record_each (m : LabelIndex) (contents path : String)
    (line : Nat)
    (h1 : "TODO-security" ∈ splitWhitespace contents)
    (h2 : "TODO-coverage" ∈ splitWhitespace contents) :
    found_possible_comment m contents path line "TODO-security" =
      m "TODO-security" ++ [mkComment contents path line] ∧
    found_possible_comment m contents path line "TODO-coverage" =
      m "TODO-coverage" ++ [mkComment contents path line] := by
  have hm1 : ("TODO-security" : String) ∈ foundKinds contents :=
    mem_foundKinds h1 (by decide)
  have hm2 : ("TODO-coverage" : String) ∈ foundKinds contents :=
    mem_foundKinds h2 (by decide)
  exact ⟨by rw [found_apply, if_pos hm1], by rw [found_apply, if_pos hm2]⟩

/-- Witness for C5 on a concrete comment containing both markers. -/
theorem C5_witness :
    found_possible_comment (fun _ => []) "x TODO-security TODO-coverage" "f.rs" 7
      "TODO-security" = [mkComment "x TODO-security TODO-coverage" "f.rs" 7] ∧
    found_possible_comment (fun _ => []) "x TODO-security TODO-coverage" "f.rs" 7
      "TODO-coverage" = [mkComment "x TODO-security TODO-coverage" "f.rs" 7] := by
  have h := C5_two_labels_one_record_each (fun _ => []) "x TODO-security TODO-coverage"
    "f.rs" 7 (by decide) (by decide)
  exact ⟨by simpa using h.1, by simpa using h.2⟩

/-- Claim C6: `TODO` and `TODO:` normalize to the same label — a comment
containing the word `TODO` and a comment containing the word `TODO:` each
file their record under the single label `TODO`. -/
theorem C6_colon_stripped_same_label (m1 m2 : LabelIndex) (t1 t2 path : String)
    (line : Nat)
    (h1 : "TODO" ∈ splitWhitespace t1) (h2 : "TODO:" ∈ splitWhitespace t2) :
    markerLabel "TODO:" = markerLabel "TODO" ∧
    found_possible_comment m1 t1 path line "TODO" = m1 "TODO" ++ [mkComment t1 path line] ∧
    found_possible_comment m2 t2 path line "TODO" = m2 "TODO" ++ [mkComment t2 path line] := by
  have hm1 : ("TODO" : String) ∈ foundKinds t1 := mem_foundKinds h1 (by decide)
  have hm2 : ("TODO" : String) ∈ foundKinds t2 := mem_foundKinds h2 (by decide)
  exact ⟨by decide, by rw [found_apply, if_pos hm1], by rw [found_apply, if_pos hm2]⟩

/-- Witness for C6 on two otherwise-identical comments. -/
theorem C6_witness :
    found_possible_comment (fun _ => []) "// TODO fix this" "f.rs" 4 "TODO" =
      [mkComment "// TODO fix this" "f.rs" 4] ∧
    found_possible_comment (fun _ => []) "// TODO: fix this" "f.rs" 4 "TODO" =
      [mkComment "// TODO: fix this" "f.rs" 4] := by
  have h := C6_colon_stripped_same_label (fun _ => []) (fun _ => [])
    "// TODO fix this" "// TODO: fix this" "f.rs" 4 (by decide) (by decide)
  exact ⟨by simpa using h.2.1, by simpa using h.2.2⟩

/-- Claim C7: from outside a comment, a line starting with `/*` (and not
containing `*/`) opens a block comment; every subsequent line is accumulated
(after trimming) up to the first line trimming exactly to `*/`, that
terminating line is included, and the whole run is emitted as one block
whose starting line is the 1-based number of the `/*` line. -/
theorem C7_block_comment_one_block (j : Nat) (raw0 : String)
    (pre : List (Nat × String)) (i : Nat) (term : String) (post : List (Nat × String))
    (h0 : strStartsWith (strTrim raw0) "/*" = true)
    (h1 : strContains (strTrim raw0) "*/" = false)
    (h2 : ∀ p ∈ pre, strTrim p.2 ≠ "*/")
    (h3 : strTrim term = "*/") :
    next ((j, raw0) :: (pre ++ (i, term) :: post)) =
      .block (j + 1)
        (join (strTrim raw0 :: (pre.map (fun p => strTrim p.2) ++ ["*/"]))) none post := by
  have hnl : strStartsWith (strTrim raw0) "//" = false :=
    startsWith_blockStart_not_line h0
  have heq : next ((j, raw0) :: (pre ++ (i, term) :: post)) =
      nextGo (.InBlockComment (j + 1)) [strTrim raw0] (pre ++ (i, term) :: post) := by
    show nextGo .NoComment [] _ = _
    simp [nextGo, hnl, h0, h1]
  rw [heq, nextGo_blockRun pre (j + 1) [strTrim raw0] i term post h2 h3]
  simp

/-- Witness for C7 on the three lines of a concrete block comment. -/
theorem C7_witness :
    next [(0, "/* foo"), (1, "bar"), (2, " */ ")] =
      .block 1
        (join (strTrim "/* foo" :: (List.map (fun p => strTrim p.2) [(1, "bar")] ++ ["*/"])))
        none [] := by
  have h := C7_block_comment_one_block 0 "/* foo" [(1, "bar")] 2 " */ " []
    (by decide) (by decide) (by decide) (by decide)
  exact h

/-- Claim C8: observing a comment is purely additive — at every key the
index is either unchanged or extended by exactly the one new record at the
end of its list (so no label or record is ever removed, mutated or
reordered); and a text without marker words leaves the index completely
unchanged.  There is no failure case: the function is total. -/
theorem C8_purely_additive (m : LabelIndex) (contents path : String) (line : Nat) :
    (∀ q, found_possible_comment m contents path line q = m q ∨
      found_possible_comment m contents path line q =
        m q ++ [mkComment contents path line]) ∧
    (∀ q, m q ≠ [] → found_possible_comment m contents path line q ≠ []) ∧
    ((∀ w ∈ splitWhitespace contents, isMarkerWord w = false) →
      found_possible_comment m contents path line = m) := by
  refine ⟨?_, ?_, ?_⟩
  · intro q
    rw [found_apply]
    by_cases hq : q ∈ foundKinds contents
    · right; rw [if_pos hq]
    · left; rw [if_neg hq]
  · intro q hq
    rw [found_apply]
    by_cases hmem : q ∈ foundKinds contents
    · rw [if_pos hmem]; simp
    · rw [if_neg hmem]; exact hq
  · intro h
    funext q
    rw [found_apply, foundKinds_eq_nil h]
    simp

/-- Witness for C8: a marker-free text changes nothing, and a prior record
survives a new observation. -/
theorem C8_witness :
    found_possible_comment (fun _ => []) "plain text only" "f.rs" 2 = (fun _ => []) ∧
    found_possible_comment (fun _ => [mkComment "TODO x" "g.rs" 1]) "TODO again" "f.rs" 2
      "TODO" ≠ [] := by
  constructor
  · exact (C8_purely_additive (fun _ => []) "plain text only" "f.rs" 2).2.2 (by decide)
  · exact (C8_purely_additive (fun _ => [mkComment "TODO x" "g.rs" 1])
      "TODO again" "f.rs" 2).2.1 "TODO" (by simp)

/-- Claim C9: every iteration step of the extractor either signals
exhaustion or returns one fully-formed block — the join of a nonempty list
of collected lines — and the internal consistency assertion at the end of
`next` (no accumulated lines on exhaustion in the `NoComment` state) can
never fail. -/
theorem C9_step_wellformed :
    ∀ rem : List (Nat × String),
      (∀ ls, next rem ≠ .assertFailed ls) ∧
      (next rem = .exhausted ∨
        ∃ start ls diag rest, ls ≠ [] ∧ next rem = .block start (join ls) diag rest) := by
  intro rem
  have h := nextGo_wf rem .NoComment [] (fun _ => rfl) (fun hn => absurd rfl hn)
  refine ⟨h.1, ?_⟩
  cases hres : next rem with
  | block s t d r =>
    right
    obtain ⟨ls, hls, ht⟩ := h.2 s t d r hres
    exact ⟨s, ls, d, r, hls, by rw [ht]⟩
  | exhausted => exact Or.inl rfl
  | assertFailed ls => exact absurd hres (h.1 ls)

/-- Claim C10: label normalization strips exactly one trailing `:` and
nothing else — a marker word not ending in `:` (such as `TODO-`) is used
verbatim as a label distinct from `TODO`, and `TODO::` is filed under the
label `TODO:`, not `TODO`. -/
theorem C10_strip_exactly_one_colon (m : LabelIndex) (t path : String) (line : Nat) :
    (∀ w, strEndsWith w ":" = false → markerLabel w = w) ∧
    (markerLabel "TODO-" = "TODO-" ∧ "TODO-" ≠ "TODO" ∧ markerLabel "TODO::" = "TODO:") ∧
    ("TODO-" ∈ splitWhitespace t →
      found_possible_comment m t path line "TODO-" = m "TODO-" ++ [mkComment t path line]) ∧
    ("TODO::" ∈ splitWhitespace t →
      found_possible_comment m t path line "TODO:" = m "TODO:" ++ [mkComment t path line]) := by
  refine ⟨?_, ⟨by decide, by decide, by decide⟩, ?_, ?_⟩
  · intro w hw
    unfold markerLabel
    rw [if_neg (by simp [hw])]
  · intro h
    have hm : ("TODO-" : String) ∈ foundKinds t := mem_foundKinds h (by decide)
    rw [found_apply, if_pos hm]
  · intro h
    have hm : ("TODO:" : String) ∈ foundKinds t := mem_foundKinds h (by decide)
    rw [found_apply, if_pos hm]

/-- Witness for C10: `TODO-` files under the verbatim label `TODO-`, and
`TODO::` files under `TODO:`. -/
theorem C10_witness :
    found_possible_comment (fun _ => []) "a TODO- b" "f.rs" 1 "TODO-" =
      [mkComment "a TODO- b" "f.rs" 1] ∧
    found_possible_comment (fun _ => []) "c TODO:: d" "f.rs" 2 "TODO:" =
      [mkComment "c TODO:: d" "f.rs" 2] := by
  constructor
  · have h := (C10_strip_exactly_one_colon (fun _ => []) "a TODO- b" "f.rs" 1).2.2.1
      (by decide)
    simpa using h
  · have h := (C10_strip_exactly_one_colon (fun _ => []) "c TODO:: d" "f.rs" 2).2.2.2
      (by decide)
    simpa using h

end Todos
